import Mathlib

/-!
Verification development for the UNC course-catalog scraper
(src/data/scraper/scrape_courses.py).

The scraper's text pipeline is embedded over `List Char`:

* `normalizeText` embeds lines 71-74 of `parse_course_block`
  (replace NBSP, `re.sub(r"\s+", " ", ...)`, `.strip()`);
* `reMatchCourse` embeds the `re.match` on line 78 with the pattern
  `([A-Z]+)\s+(\d+[A-Z]?)\.\s*(.+?)\.\s*(\d+(?:-\d+)?)\s*Credits?\.`,
  following Python's leftmost backtracking semantics: greedy pieces try
  the longest alternative first (`trySpacesTitle` counts down the run of
  whitespace), the lazy `(.+?)` tries the shortest title first
  (`tryTitlesAux`), and `.` does not match a newline;
* `searchDesc` embeds the `re.search` on line 93 with the pattern
  `Credits?\.\s*(.+?)(?:Rules\s*&\s*Requirements|Grading\s*Status|Repeat\s*Rules|$)`
  under `re.IGNORECASE`: start positions are tried left to right, and at
  each position the same greedy/lazy discipline applies;
* `extract_geneds`, `parse_course_block`, `scrape_department`,
  `insertCourse`/`runCatalog` (the dict accumulation in `main`) and the
  JSON serializer mirror the remaining source functions.  Network fetching
  and HTML parsing live in external libraries (`requests`, `bs4`), so a run
  is parameterised by a fetch oracle `String → Except String (List (List Char))`
  returning the block texts of a department page, or a transport error.

Character classes are restricted to the ASCII range (plus NBSP for `\s`),
which covers the catalog text the scraper consumes.
-/

/-- Python's `\s` class (and `str.strip`/`str.split` whitespace) on the
ASCII range, plus the non-breaking space U+00A0. -/
def pyIsSpace (c : Char) : Bool :=
  c.toNat = 32 || c.toNat = 9 || c.toNat = 10 || c.toNat = 13 ||
  c.toNat = 11 || c.toNat = 12 || c.toNat = 160

/-- The regex class `[A-Z]`. -/
def isUpperAZ (c : Char) : Bool :=
  decide (65 ≤ c.toNat) && decide (c.toNat ≤ 90)

/-- The regex class `\d` (ASCII digits, as produced by the catalog). -/
def isDigitC (c : Char) : Bool :=
  decide (48 ≤ c.toNat) && decide (c.toNat ≤ 57)

/-- Line 73: `full_text.replace('\xa0', ' ')`. -/
def replaceNbsp (s : List Char) : List Char :=
  s.map (fun c => if c = '\xA0' then ' ' else c)

/-- Line 74, first half: `re.sub(r"\s+", " ", full_text)` — every maximal
run of whitespace becomes a single ordinary space. -/
def collapseWS : List Char → List Char
  | [] => []
  | [c] => if pyIsSpace c then [' '] else [c]
  | c :: d :: rest =>
    if pyIsSpace c then
      if pyIsSpace d then collapseWS (d :: rest)
      else ' ' :: collapseWS (d :: rest)
    else c :: collapseWS (d :: rest)

/-- Remove trailing whitespace (the right half of `str.strip`). -/
def dropTrailing (s : List Char) : List Char :=
  (s.reverse.dropWhile pyIsSpace).reverse

/-- Python `str.strip()`. -/
def stripWS (s : List Char) : List Char :=
  dropTrailing (s.dropWhile pyIsSpace)

/-- Lines 71-74: the full text normalization applied to a block's text
before any pattern matching. -/
def normalizeText (s : List Char) : List Char :=
  stripWS (collapseWS (replaceNbsp s))

/-- Lines 39-45: the fixed general-education vocabulary, in source order. -/
def GENED_PATTERNS : List String :=
  ["FY-LAUNCH", "FY-SEMINAR", "FY-WRITING", "FY-DATA", "FY-THRIVE",
   "FC-AESTH", "FC-CREATE", "FC-PAST", "FC-VALUES", "FC-GLOBAL",
   "FC-NATSCI", "FC-POWER", "FC-QUANT", "FC-KNOWING", "FC-LAB",
   "GLBL-LANG", "RESEARCH", "HIGH-IMPACT", "COMMBEYOND", "INTERDISC",
   "LIFE-FIT", "CAMPUS-LIFE", "AMER-DEM"]

/-- Python `str.upper()` (ASCII). -/
def upperOf (s : List Char) : List Char :=
  s.map Char.toUpper

/-- Python's substring test `pat in s`. -/
def containsSub (pat : List Char) : List Char → Bool
  | [] => pat.isEmpty
  | c :: t => pat.isPrefixOf (c :: t) || containsSub pat t

/-- Lines 58-64: `extract_geneds` — keep every vocabulary entry contained
in the uppercased text, in vocabulary order. -/
def extract_geneds (text : List Char) : List String :=
  GENED_PATTERNS.filter (fun p => containsSub p.toList (upperOf text))

/-- Strip an exact (case-sensitive) literal off the front of the input. -/
def stripPrefixL : List Char → List Char → Option (List Char)
  | [], s => some s
  | _ :: _, [] => none
  | p :: ps, c :: cs => if c = p then stripPrefixL ps cs else none

/-- Strip a literal off the front of the input, comparing case-insensitively
(the pattern is given in lowercase), as `re.IGNORECASE` does for ASCII. -/
def ciStrip : List Char → List Char → Option (List Char)
  | [], s => some s
  | _ :: _, [] => none
  | p :: ps, c :: cs => if c.toLower = p then ciStrip ps cs else none

/-- The end `\s*Credits?\.` of the course pattern, run on `u3` with the
credits capture `cr` already in hand: maximal whitespace run (forced: a
whitespace character can never satisfy the following literal), the exact
literal `Credit`, the greedy optional `s` (its fallback can never help:
if the period is missing after `s`, it is also missing at `s`), and the
period. -/
def finishCredits (cr u3 : List Char) : Option (List Char × List Char) :=
  match stripPrefixL ("Credit").toList (u3.dropWhile pyIsSpace) with
  | none => none
  | some w =>
    match w with
    | 's' :: '.' :: after => some (cr, after)
    | '.' :: after => some (cr, after)
    | _ => none

/-- The tail `\s*(\d+(?:-\d+)?)\s*Credits?\.` of the course pattern,
applied after the title's closing period.  Each greedy piece here is
forced: backtracking it would put a character of its own class in front
of a disjoint class, so the maximal run is the only viable choice.
The optional `(?:-\d+)` is taken exactly when a hyphen-plus-digit
follows (its fallback, leaving the hyphen in place, can never match the
following literal).  Returns the credits capture and the remaining input. -/
def matchCreditsTail (u : List Char) : Option (List Char × List Char) :=
  match (u.dropWhile pyIsSpace).takeWhile isDigitC,
        (u.dropWhile pyIsSpace).dropWhile isDigitC with
  | [], _ => none
  | d :: ds, '-' :: v =>
    match v.takeWhile isDigitC with
    | [] => finishCredits (d :: ds) ('-' :: v)
    | e :: es => finishCredits ((d :: ds) ++ '-' :: e :: es) (v.dropWhile isDigitC)
  | d :: ds, u2 => finishCredits (d :: ds) u2

/-- The lazy title loop: `(.+?)\.` followed by the credits tail.  `acc` is
the reversed title collected so far (never empty).  On seeing a period the
shorter parse (period as the title's terminator) is tried first, exactly
as the lazy quantifier does; `.` never consumes a newline. -/
def tryTitlesAux : List Char → List Char → Option (List Char × List Char × List Char)
  | _, [] => none
  | acc, c :: rest =>
    if c = '.' then
      match matchCreditsTail rest with
      | some (cr, after) => some (acc.reverse, cr, after)
      | none => tryTitlesAux ('.' :: acc) rest
    else if c = '\n' then none
    else tryTitlesAux (c :: acc) rest

/-- Seed the lazy title with its mandatory first character. -/
def tryTitles : List Char → Option (List Char × List Char × List Char)
  | [] => none
  | c :: rest => if c = '\n' then none else tryTitlesAux [c] rest

/-- The greedy `\s*` before the title: `j` whitespace characters are
consumed, starting from the maximal run and counting down, as Python's
backtracking does. -/
def trySpacesTitle (r : List Char) : Nat → Option (List Char × List Char × List Char)
  | 0 => tryTitles r
  | j + 1 =>
    match tryTitles (r.drop (j + 1)) with
    | some x => some x
    | none => trySpacesTitle r j

/-- Continue the course pattern after `([A-Z]+)\s+(\d+[A-Z]?)\.`:
run `\s*(.+?)\.\s*(\d+(?:-\d+)?)\s*Credits?\.` on `r` and package the
four captures. -/
def finishCourse (p num r : List Char) :
    Option (List Char × List Char × List Char × List Char) :=
  match trySpacesTitle r ((r.takeWhile pyIsSpace).length) with
  | some (title, cr, _) => some (p, num, title, cr)
  | none => none

/-- Line 78: `re.match(r"([A-Z]+)\s+(\d+[A-Z]?)\.\s*(.+?)\.\s*(\d+(?:-\d+)?)\s*Credits?\.", full_text)`.
The leading greedy pieces are forced (adjacent classes are disjoint), so
they are taken as maximal runs; the optional `[A-Z]?` tries to consume a
letter first and falls back to the literal period, as the greedy `?` does.
Returns the four captures (prefix, number, title, credits) on success. -/
def reMatchCourse (s : List Char) :
    Option (List Char × List Char × List Char × List Char) :=
  if s.takeWhile isUpperAZ = [] then none
  else if (s.dropWhile isUpperAZ).takeWhile pyIsSpace = [] then none
  else
    match ((s.dropWhile isUpperAZ).dropWhile pyIsSpace).takeWhile isDigitC,
          ((s.dropWhile isUpperAZ).dropWhile pyIsSpace).dropWhile isDigitC with
    | [], _ => none
    | _ :: _, [] => none
    | d :: ds, c :: rest =>
      if isUpperAZ c then
        match rest with
        | '.' :: r => finishCourse (s.takeWhile isUpperAZ) ((d :: ds) ++ [c]) r
        | _ => none
      else if c = '.' then finishCourse (s.takeWhile isUpperAZ) (d :: ds) rest
      else none

/-- Lines 89-90: `if "-" in credits: credits = credits.split("-")[1]` —
for a range keep the piece between the first and second hyphen, i.e. the
value after the hyphen. -/
def resolveCredits (cr : List Char) : List Char :=
  if '-' ∈ cr then
    ((cr.dropWhile (fun c => !(c = '-'))).drop 1).takeWhile (fun c => !(c = '-'))
  else cr

/-- Python `int()` on a digit string. -/
def digitsToNat (l : List Char) : Nat :=
  l.foldl (fun n c => 10 * n + (c.toNat - 48)) 0

/-- Case-insensitive match of `Rules\s*&\s*Requirements` at the head of
the input. -/
def matchRulesReq (s : List Char) : Bool :=
  match ciStrip ("rules").toList s with
  | none => false
  | some u =>
    match u.dropWhile pyIsSpace with
    | '&' :: v => (ciStrip ("requirements").toList (v.dropWhile pyIsSpace)).isSome
    | _ => false

/-- Case-insensitive match of `Grading\s*Status` at the head of the input. -/
def matchGradingStatus (s : List Char) : Bool :=
  match ciStrip ("grading").toList s with
  | none => false
  | some u => (ciStrip ("status").toList (u.dropWhile pyIsSpace)).isSome

/-- Case-insensitive match of `Repeat\s*Rules` at the head of the input. -/
def matchRepeatRules (s : List Char) : Bool :=
  match ciStrip ("repeat").toList s with
  | none => false
  | some u => (ciStrip ("rules").toList (u.dropWhile pyIsSpace)).isSome

/-- The description terminator
`(?:Rules\s*&\s*Requirements|Grading\s*Status|Repeat\s*Rules|$)`:
one of the three boundary phrases, or `$` (end of input, or just before a
final newline). -/
def boundaryOrEnd (s : List Char) : Bool :=
  matchRulesReq s || matchGradingStatus s || matchRepeatRules s ||
  s.isEmpty || decide (s = ['\n'])

/-- The lazy description loop `(.+?)` followed by the terminator; `acc` is
the reversed description so far (never empty), and the shortest extension
is tried first. -/
def descAux : List Char → List Char → Option (List Char)
  | acc, rest =>
    if boundaryOrEnd rest then some acc.reverse
    else
      match rest with
      | [] => none
      | c :: rest' => if c = '\n' then none else descAux (c :: acc) rest'

/-- Seed the lazy description with its mandatory first character. -/
def tryDescAt : List Char → Option (List Char)
  | [] => none
  | c :: rest => if c = '\n' then none else descAux [c] rest

/-- The greedy `\s*` after `Credits?\.` in the description pattern:
`j` whitespace characters consumed, maximal run first, counting down. -/
def trySpacesDesc (u : List Char) : Nat → Option (List Char)
  | 0 => tryDescAt u
  | j + 1 =>
    match tryDescAt (u.drop (j + 1)) with
    | some d => some d
    | none => trySpacesDesc u j

/-- After the case-insensitive literal `credit`: the greedy optional `s`
(tried first, and if taken the period must follow it — the fallback can
never recover, since a period would then have to sit where the `s` is),
then the literal period.  Returns the input after the period. -/
def creditMarkTail : List Char → Option (List Char)
  | [] => none
  | [c] => if c = '.' then some [] else none
  | c :: r :: v =>
    if c.toLower = 's' then
      if r = '.' then some v else none
    else if c = '.' then some (r :: v)
    else none

/-- Match `Credits?\.` case-insensitively at the head of the input: the literal
`Credit`, then the greedy optional `s`, then the period.  Returns the
remaining input after the period. -/
def tryCreditsHere (s : List Char) : Option (List Char) :=
  match ciStrip ("credit").toList s with
  | none => none
  | some u => creditMarkTail u

/-- Line 93: `re.search(r"Credits?\.\s*(.+?)(?:Rules\s*&\s*Requirements|Grading\s*Status|Repeat\s*Rules|$)", full_text, re.IGNORECASE)`,
returning the first capture group.  Start positions are tried left to
right; at a failing start position the scan moves one character forward. -/
def searchDesc : List Char → Option (List Char)
  | [] => none
  | c :: rest =>
    match tryCreditsHere (c :: rest) with
    | some u =>
      match trySpacesDesc u ((u.takeWhile pyIsSpace).length) with
      | some d => some d
      | none => searchDesc rest
    | none => searchDesc rest

/-- Lines 98-101: the description field — the capture group (or `""` with
no match), `.strip()`ed, whitespace-collapsed, and `.strip()`ed again. -/
def descOf (fullText : List Char) : List Char :=
  stripWS (collapseWS (stripWS ((searchDesc fullText).getD [])))

/-- The record built on lines 109-117 (`key` is the dict key constructed
on line 107; the Python field name `prefix` is spelled `pfx` here because
`prefix` is a Lean keyword). -/
structure CourseRecord where
  key : List Char
  pfx : List Char
  number : List Char
  title : List Char
  credits : Nat
  description : List Char
  geneds : List String
deriving DecidableEq

/-- Lines 67-119: `parse_course_block`.  The guard before building the
record mirrors the `int(credits)` conversion inside the `try`: a
non-numeric credits string would raise `ValueError`, be caught by the
blanket `except`, and yield `None`. -/
def parse_course_block (blockText : List Char) : Option CourseRecord :=
  match reMatchCourse (normalizeText blockText) with
  | none => none
  | some (p, num, title0, cr) =>
    if resolveCredits cr ≠ [] ∧ (resolveCredits cr).all isDigitC then
      some { key := p ++ num, pfx := p, number := num, title := stripWS title0,
             credits := digitsToNat (resolveCredits cr),
             description := descOf (normalizeText blockText),
             geneds := extract_geneds (normalizeText blockText) }
    else none

/-- The stored value of the catalog mapping: the record after
`course.pop("key")` on line 157. -/
structure StoredCourse where
  pfx : List Char
  number : List Char
  title : List Char
  credits : Nat
  description : List Char
  geneds : List String
deriving DecidableEq

def toStored (r : CourseRecord) : StoredCourse :=
  { pfx := r.pfx, number := r.number, title := r.title, credits := r.credits,
    description := r.description, geneds := r.geneds }

/-- Lines 122-142: `scrape_department`.  The fetch oracle stands for
`get_soup` + `find_all("div", class_="courseblock")`: it yields the text
of each course block, or a transport/HTTP error.  On an error the
department yields the empty list; otherwise each block is parsed and the
`None` results are dropped. -/
def scrape_department (fetch : String → Except String (List (List Char)))
    (dept : String) : List CourseRecord :=
  match fetch dept with
  | Except.error _ => []
  | Except.ok blocks => blocks.filterMap parse_course_block

/-- Line 158, `all_courses[key] = course`: Python dict assignment keeps
the original position of an existing key (overwriting its value) and
appends a fresh key at the end. -/
def insertCourse (cat : List (List Char × StoredCourse)) (k : List Char)
    (v : StoredCourse) : List (List Char × StoredCourse) :=
  if cat.any (fun e => decide (e.1 = k)) then
    cat.map (fun e => if e.1 = k then (k, v) else e)
  else cat ++ [(k, v)]

/-- Dict lookup on the catalog. -/
def lookupCat (cat : List (List Char × StoredCourse)) (k : List Char) :
    Option StoredCourse :=
  (cat.find? (fun e => decide (e.1 = k))).map (fun e => e.2)

/-- Lines 150-158: the aggregation loop of `main` — fold every department
in order into the catalog, keying each parsed course by its popped key. -/
def runCatalog (fetch : String → Except String (List (List Char)))
    (depts : List String) : List (List Char × StoredCourse) :=
  depts.foldl
    (fun acc d =>
      (scrape_department fetch d).foldl (fun a c => insertCourse a c.key (toStored c)) acc)
    []

/-- Lines 28-36: the fixed department list. -/
def ARTS_SCIENCES_DEPTS : List String :=
  ["aaad", "amst", "anth", "arab", "arch", "arth", "arts", "asia", "astr",
   "biol", "chem", "chin", "clas", "clar", "comm", "cmpl", "comp", "data",
   "dram", "econ", "engl", "enec", "exss", "folk", "fren", "geog", "geol",
   "germ", "glbl", "grek", "hebr", "hist", "ital", "japn", "jwst", "kor",
   "latn", "lfit", "ling", "ltam", "math", "musc", "phil", "phys", "poli",
   "port", "psyc", "pwad", "reli", "roml", "russ", "soci", "span", "stor",
   "wgst"]

/-- The first position (scanning left to right) at which `Credits?\.`
matches case-insensitively; returns the input remaining after the
period.  This is the "credits statement" the description search keys on. -/
def firstCreditMarker : List Char → Option (List Char)
  | [] => none
  | c :: rest =>
    match tryCreditsHere (c :: rest) with
    | some u => some u
    | none => firstCreditMarker rest

/-- The least index at which a boundary phrase (or the end of input)
occurs in `r`. -/
def boundaryIdx : List Char → Nat
  | [] => 0
  | c :: rest => if boundaryOrEnd (c :: rest) then 0 else boundaryIdx rest + 1

/-- The description as the spec sentence literally reads: the text after
the credits statement (first case-insensitive `Credits?\.` match, then
the whitespace run) up to the FIRST occurrence of a boundary phrase or
the end of the string — allowing that first occurrence to sit at the very
start of the region, in which case the description is empty. -/
def descClaimOf (text : List Char) : List Char :=
  match firstCreditMarker text with
  | none => []
  | some u =>
    stripWS (collapseWS (stripWS
      ((u.dropWhile pyIsSpace).take (boundaryIdx (u.dropWhile pyIsSpace)))))

/-- The amended description claim: as `descClaimOf`, except that the
region is nonempty — it extends to the first boundary-phrase occurrence
STRICTLY AFTER its first character (a boundary phrase starting
immediately after the credits statement does not terminate it), and an
empty post-credits region yields the empty description. -/
def descAmendedOf (text : List Char) : List Char :=
  match firstCreditMarker text with
  | none => []
  | some u =>
    match u.dropWhile pyIsSpace with
    | [] => []
    | c :: r' =>
      stripWS (collapseWS (stripWS ((c :: r').take (1 + boundaryIdx r'))))

/-- The `code` construction rule of the data model: one or more uppercase
letters, then one or more digits, then at most one trailing uppercase
letter. -/
def validKeyB (k : List Char) : Bool :=
  decide (k.takeWhile isUpperAZ ≠ []) &&
  decide ((k.dropWhile isUpperAZ).takeWhile isDigitC ≠ []) &&
  (((k.dropWhile isUpperAZ).dropWhile isDigitC).isEmpty ||
    (decide (((k.dropWhile isUpperAZ).dropWhile isDigitC).length = 1) &&
     ((k.dropWhile isUpperAZ).dropWhile isDigitC).all isUpperAZ))

/-- The shape of the credits capture group `(\d+(?:-\d+)?)`: a nonempty
digit run, or two nonempty digit runs joined by a hyphen. -/
def CreditsShape (cr : List Char) : Prop :=
  (cr ≠ [] ∧ cr.all isDigitC = true) ∨
  ∃ d1 d2, cr = d1 ++ '-' :: d2 ∧ d1 ≠ [] ∧ d2 ≠ [] ∧
    d1.all isDigitC = true ∧ d2.all isDigitC = true

/-- Lowercase hexadecimal digit, as `json.dump`'s `\uXXXX` escapes use. -/
def hexDigitChar (n : Nat) : Char :=
  if n < 10 then Char.ofNat (48 + n) else Char.ofNat (87 + n)

def hex4 (n : Nat) : List Char :=
  [hexDigitChar (n / 4096 % 16), hexDigitChar (n / 256 % 16),
   hexDigitChar (n / 16 % 16), hexDigitChar (n % 16)]

/-- One character of a JSON string under `json.dump`'s defaults
(`ensure_ascii=True`): shorthand escapes, `\uXXXX` for other characters
outside printable ASCII, surrogate pairs beyond the BMP. -/
def jsonEscapeChar (c : Char) : List Char :=
  if c = '"' then ['\\', '"']
  else if c = '\\' then ['\\', '\\']
  else if c = '\n' then ['\\', 'n']
  else if c = '\t' then ['\\', 't']
  else if c = '\r' then ['\\', 'r']
  else if c.toNat = 8 then ['\\', 'b']
  else if c.toNat = 12 then ['\\', 'f']
  else if 32 ≤ c.toNat ∧ c.toNat ≤ 126 then [c]
  else if c.toNat < 65536 then '\\' :: 'u' :: hex4 c.toNat
  else
    ('\\' :: 'u' :: hex4 (55296 + (c.toNat - 65536) / 1024)) ++
    ('\\' :: 'u' :: hex4 (56320 + (c.toNat - 65536) % 1024))

def jsonString (s : List Char) : List Char :=
  '"' :: (s.map jsonEscapeChar).flatten ++ ['"']

def natDecimal (n : Nat) : List Char :=
  (Nat.repr n).toList

def commaNewline : List Char := (",\n").toList

/-- The `geneds` array at nesting depth 2 of `json.dump(..., indent=2)`. -/
def serializeGeneds (gs : List String) : List Char :=
  match gs with
  | [] => ("[]").toList
  | _ =>
    ("[\n").toList ++
    List.intercalate commaNewline
      (gs.map (fun g => ("      ").toList ++ jsonString g.toList)) ++
    ("\n    ]").toList

/-- A stored course as the inner object of `json.dump(..., indent=2)`,
fields in the insertion order of the dict literal on lines 109-117 with
`key` popped. -/
def serializeStored (r : StoredCourse) : List Char :=
  ("\x7b\n").toList ++
  List.intercalate commaNewline
    [("    \"prefix\": ").toList ++ jsonString r.pfx,
     ("    \"number\": ").toList ++ jsonString r.number,
     ("    \"title\": ").toList ++ jsonString r.title,
     ("    \"credits\": ").toList ++ natDecimal r.credits,
     ("    \"description\": ").toList ++ jsonString r.description,
     ("    \"geneds\": ").toList ++ serializeGeneds r.geneds] ++
  ("\n  \x7d").toList

/-- Lines 174-175: `json.dump(all_courses, f, indent=2)`, keys in dict
insertion order. -/
def serializeCatalog (cat : List (List Char × StoredCourse)) : List Char :=
  match cat with
  | [] => ("\x7b\x7d").toList
  | _ =>
    ("\x7b\n").toList ++
    List.intercalate commaNewline
      (cat.map (fun e => ("  ").toList ++ jsonString e.1 ++ (": ").toList ++
                         serializeStored e.2)) ++
    ("\n\x7d").toList

/-- A full run: aggregate every department of the fixed list through the
fetch oracle and serialize the catalog to the output bytes. -/
def runOutput (fetch : String → Except String (List (List Char))) : List Char :=
  serializeCatalog (runCatalog fetch ARTS_SCIENCES_DEPTS)

/-- A well-formed course block text (used by the witnesses). -/
def blockEx : List Char :=
  ("ENGL 105. Composition. 3 Credits. Instruction in composition. Rules & Requirements: none.").toList

/-- The record `parse_course_block` produces from `blockEx`. -/
def recEx : CourseRecord :=
  { key := ("ENGL105").toList, pfx := ("ENGL").toList, number := ("105").toList,
    title := ("Composition").toList, credits := 3,
    description := ("Instruction in composition.").toList, geneds := [] }

/-- A block with a credit range (used by the C10 witness). -/
def rangeEx : List Char :=
  ("MATH 89. Special Topics. 1-3 Credits. Topics vary. Grading Status: letter.").toList

/-- The record `parse_course_block` produces from `rangeEx`. -/
def rangeRec : CourseRecord :=
  { key := ("MATH89").toList, pfx := ("MATH").toList, number := ("89").toList,
    title := ("Special Topics").toList, credits := 3,
    description := ("Topics vary.").toList, geneds := [] }

/-- A heading fragment with no course pattern. -/
def headingEx : List Char := ("Advising").toList

/-- A block whose credit range is written high-to-low: the C2
counterexample. -/
def rangeRevEx : List Char := ("A 1. T. 3-1 Credits. x").toList

/-- The record `parse_course_block` produces from `rangeRevEx`: note
`credits = 1`, the value after the hyphen. -/
def rangeRevRec : CourseRecord :=
  { key := ("A1").toList, pfx := ("A").toList, number := ("1").toList,
    title := ("T").toList, credits := 1,
    description := ("x").toList, geneds := [] }

/-- A block whose boundary phrase starts immediately after the credits
statement: the C4 counterexample. -/
def boundaryAtStartEx : List Char := ("A 1. T. 3 Credits. Rules & Requirements: x").toList

/-- The record `parse_course_block` produces from `boundaryAtStartEx`:
its description retains the boundary phrase and everything after it. -/
def boundaryAtStartRec : CourseRecord :=
  { key := ("A1").toList, pfx := ("A").toList, number := ("1").toList,
    title := ("T").toList, credits := 3,
    description := ("Rules & Requirements: x").toList, geneds := [] }

/-- Text in which FC-QUANT appears before FC-GLOBAL. -/
def genedsEx : List Char := ("Gen eds: FC-QUANT, FC-GLOBAL.").toList

/-- Messy whitespace input for the C6 witness. -/
def messyEx : List Char := ("  a\xa0 b\n\tc ").toList

/-- A fetch oracle that fails for every department. -/
def envErrA : String → Except String (List (List Char)) :=
  fun _ => Except.error "connection refused"

/-- A second, identically-behaving fetch oracle. -/
def envErrB : String → Except String (List (List Char)) :=
  fun _ => Except.error "connection refused"

/-- A fetch oracle serving one department and failing for the rest. -/
def envOne : String → Except String (List (List Char)) :=
  fun d => if d = "engl" then Except.ok [blockEx] else Except.error "503"

/-! ## Character-class and list toolbox -/

theorem isDigitC_ne_hyphen {c : Char} (h : isDigitC c = true) : ¬ c = '-' := by
  intro he
  subst he
  simp [isDigitC] at h

theorem isDigitC_not_upper {c : Char} (h : isDigitC c = true) : isUpperAZ c = false := by
  simp only [isDigitC, Bool.and_eq_true, decide_eq_true_eq] at h
  simp only [isUpperAZ, Bool.and_eq_false_iff, decide_eq_false_iff_not]
  omega

theorem mem_takeWhile_pred {α : Type} {p : α → Bool} :
    ∀ {l : List α} {a : α}, a ∈ l.takeWhile p → p a = true := by
  intro l
  induction l with
  | nil => intro a h; simp [List.takeWhile] at h
  | cons x xs ih =>
    intro a h
    rw [List.takeWhile_cons] at h
    by_cases hx : p x = true
    · rw [if_pos hx] at h
      rcases List.mem_cons.mp h with h1 | h2
      · rwa [h1]
      · exact ih h2
    · rw [if_neg hx] at h
      simp at h

theorem takeWhile_all_eq {α : Type} {p : α → Bool} :
    ∀ {l : List α}, (∀ x ∈ l, p x = true) → l.takeWhile p = l := by
  intro l
  induction l with
  | nil => intro _; rfl
  | cons x xs ih =>
    intro h
    rw [List.takeWhile_cons, if_pos (h x (List.mem_cons_self x xs))]
    rw [ih (fun y hy => h y (List.mem_cons_of_mem x hy))]

theorem dropWhile_all_append {α : Type} {p : α → Bool} :
    ∀ {l : List α} (r : List α), (∀ x ∈ l, p x = true) →
      (l ++ r).dropWhile p = r.dropWhile p := by
  intro l
  induction l with
  | nil => intro r _; rfl
  | cons x xs ih =>
    intro r h
    rw [List.cons_append, List.dropWhile_cons, if_pos (h x (List.mem_cons_self x xs))]
    exact ih r (fun y hy => h y (List.mem_cons_of_mem x hy))

theorem dropWhile_head_false {α : Type} {p : α → Bool} :
    ∀ {l : List α} {a : α} {t : List α}, l.dropWhile p = a :: t → p a = false := by
  intro l
  induction l with
  | nil => intro a t h; simp [List.dropWhile] at h
  | cons x xs ih =>
    intro a t h
    rw [List.dropWhile_cons] at h
    by_cases hx : p x = true
    · rw [if_pos hx] at h; exact ih h
    · rw [if_neg hx] at h
      cases h
      exact Bool.of_not_eq_true hx

theorem drop_takeWhile_length {α : Type} (p : α → Bool) :
    ∀ (l : List α), l.drop (l.takeWhile p).length = l.dropWhile p := by
  intro l
  induction l with
  | nil => rfl
  | cons x xs ih =>
    rw [List.takeWhile_cons, List.dropWhile_cons]
    by_cases hx : p x = true
    · rw [if_pos hx, if_pos hx, List.length_cons, List.drop_succ_cons]
      exact ih
    · rw [if_neg hx, if_neg hx, List.length_nil, List.drop_zero]

/-! ## Shape of the course-pattern captures -/

theorem finishCredits_fst {cr u3 cr2 after : List Char}
    (h : finishCredits cr u3 = some (cr2, after)) : cr2 = cr := by
  unfold finishCredits at h
  split at h
  · exact absurd h (by simp)
  · split at h
    · cases h; rfl
    · cases h; rfl
    · exact absurd h (by simp)

theorem matchCreditsTail_shape {u : List Char} {cr after : List Char}
    (h : matchCreditsTail u = some (cr, after)) : CreditsShape cr := by
  unfold matchCreditsTail at h
  split at h
  · exact absurd h (by simp)
  · rename_i d ds v heq1 heq2
    have hdigits : ∀ x ∈ d :: ds, isDigitC x = true := by
      intro x hx
      exact mem_takeWhile_pred (heq1 ▸ hx)
    split at h
    · have := finishCredits_fst h
      subst this
      exact Or.inl ⟨by simp, List.all_eq_true.mpr hdigits⟩
    · rename_i e es he
      have hd2 : ∀ x ∈ e :: es, isDigitC x = true := by
        intro x hx
        exact mem_takeWhile_pred (he ▸ hx)
      have := finishCredits_fst h
      subst this
      exact Or.inr ⟨d :: ds, e :: es, rfl, by simp, by simp,
        List.all_eq_true.mpr hdigits, List.all_eq_true.mpr hd2⟩
  · rename_i d ds heq1 hne
    have hdigits : ∀ x ∈ d :: ds, isDigitC x = true := by
      intro x hx
      exact mem_takeWhile_pred (heq1 ▸ hx)
    have := finishCredits_fst h
    subst this
    exact Or.inl ⟨by simp, List.all_eq_true.mpr hdigits⟩

theorem tryTitlesAux_shape :
    ∀ {rest acc t cr aft : List Char},
      tryTitlesAux acc rest = some (t, cr, aft) → CreditsShape cr := by
  intro rest
  induction rest with
  | nil => intro acc t cr aft h; simp [tryTitlesAux] at h
  | cons c rest ih =>
    intro acc t cr aft h
    unfold tryTitlesAux at h
    split at h
    · split at h
      · rename_i cr2 after2 hmc
        cases h
        exact matchCreditsTail_shape hmc
      · exact ih h
    · split at h
      · exact absurd h (by simp)
      · exact ih h

theorem tryTitles_shape {r t cr aft : List Char}
    (h : tryTitles r = some (t, cr, aft)) : CreditsShape cr := by
  cases r with
  | nil => simp [tryTitles] at h
  | cons c rest =>
    rw [show tryTitles (c :: rest) = if c = '\n' then none else tryTitlesAux [c] rest
        from rfl] at h
    by_cases hc : c = '\n'
    · rw [if_pos hc] at h
      exact absurd h (by simp)
    · rw [if_neg hc] at h
      exact tryTitlesAux_shape h

theorem trySpacesTitle_shape {r : List Char} :
    ∀ {j : Nat} {t cr aft : List Char},
      trySpacesTitle r j = some (t, cr, aft) → CreditsShape cr := by
  intro j
  induction j with
  | zero => intro t cr aft h; exact tryTitles_shape h
  | succ j ih =>
    intro t cr aft h
    unfold trySpacesTitle at h
    split at h
    · rename_i x hx
      cases h
      exact tryTitles_shape hx
    · exact ih h

theorem finishCourse_inv {p0 num r p n t cr : List Char}
    (h : finishCourse p0 num r = some (p, n, t, cr)) :
    p = p0 ∧ n = num ∧ CreditsShape cr := by
  unfold finishCourse at h
  split at h
  · rename_i title cr2 aft hx
    cases h
    exact ⟨rfl, rfl, trySpacesTitle_shape hx⟩
  · exact absurd h (by simp)

/-- The captures of a successful course-pattern match: the prefix is the
maximal leading `[A-Z]` run (nonempty), the number is the maximal digit
run that follows the whitespace (nonempty) plus an optional single
uppercase letter, and the credits capture has the `\d+(?:-\d+)?` shape. -/
theorem reMatchCourse_spec {s p n t cr : List Char}
    (h : reMatchCourse s = some (p, n, t, cr)) :
    p = s.takeWhile isUpperAZ ∧ p ≠ [] ∧
    (∃ opt, n = ((s.dropWhile isUpperAZ).dropWhile pyIsSpace).takeWhile isDigitC ++ opt ∧
      ((s.dropWhile isUpperAZ).dropWhile pyIsSpace).takeWhile isDigitC ≠ [] ∧
      (opt = [] ∨ ∃ c, opt = [c] ∧ isUpperAZ c = true)) ∧
    CreditsShape cr := by
  unfold reMatchCourse at h
  split at h
  · exact absurd h (by simp)
  · split at h
    · exact absurd h (by simp)
    · rename_i hp hs
      split at h
      · exact absurd h (by simp)
      · exact absurd h (by simp)
      · rename_i d ds c rest heq1 heq2
        split at h
        · rename_i hc
          split at h
          · rename_i r hr
            obtain ⟨h1, h2, h3⟩ := finishCourse_inv h
            refine ⟨h1, by rw [h1]; exact hp, ⟨[c], ?_, ?_, Or.inr ⟨c, rfl, hc⟩⟩, h3⟩
            · rw [h2, heq1]
            · rw [heq1]; simp
          · exact absurd h (by simp)
        · split at h
          · obtain ⟨h1, h2, h3⟩ := finishCourse_inv h
            refine ⟨h1, by rw [h1]; exact hp, ⟨[], ?_, ?_, Or.inl rfl⟩, h3⟩
            · rw [h2, heq1, List.append_nil]
            · rw [heq1]; simp
          · exact absurd h (by simp)

theorem resolveCredits_digits {cr : List Char} (h : cr.all isDigitC = true) :
    resolveCredits cr = cr := by
  have hm : ¬ '-' ∈ cr := by
    intro hmem
    have := List.all_eq_true.mp h _ hmem
    simp [isDigitC] at this
  simp [resolveCredits, hm]

theorem resolveCredits_range {d1 d2 : List Char}
    (h1 : d1.all isDigitC = true) (h2 : d2.all isDigitC = true) :
    resolveCredits (d1 ++ '-' :: d2) = d2 := by
  have hmem : '-' ∈ d1 ++ '-' :: d2 :=
    List.mem_append_right _ (List.mem_cons_self _ _)
  have hd1 : ∀ x ∈ d1, (fun c => !decide (c = '-')) x = true := by
    intro x hx
    simp [isDigitC_ne_hyphen (List.all_eq_true.mp h1 x hx)]
  have hd2 : ∀ x ∈ d2, (fun c => !decide (c = '-')) x = true := by
    intro x hx
    simp [isDigitC_ne_hyphen (List.all_eq_true.mp h2 x hx)]
  unfold resolveCredits
  rw [if_pos hmem, dropWhile_all_append _ hd1, List.dropWhile_cons]
  simp only [decide_True, Bool.not_true, Bool.false_eq_true, if_false,
    List.drop_succ_cons, List.drop_zero]
  exact takeWhile_all_eq hd2

theorem CreditsShape_resolve {cr : List Char} (h : CreditsShape cr) :
    resolveCredits cr ≠ [] ∧ (resolveCredits cr).all isDigitC = true := by
  rcases h with ⟨hne, hall⟩ | ⟨d1, d2, rfl, _, h2, ha1, ha2⟩
  · rw [resolveCredits_digits hall]
    exact ⟨hne, hall⟩
  · rw [resolveCredits_range ha1 ha2]
    exact ⟨h2, ha2⟩

/-- Claim C10: whenever the course pattern matches, the credit string
retained after range resolution (the part after the hyphen for a range,
the whole capture otherwise) is a nonempty run of decimal digits, so the
`int()` conversion cannot fail and the `except` branch is unreachable
from the credit-parsing step. -/
theorem C10_resolved_credits_numeric (s p n t cr : List Char)
    (h : reMatchCourse s = some (p, n, t, cr)) :
    resolveCredits cr ≠ [] ∧ (resolveCredits cr).all isDigitC = true :=
  CreditsShape_resolve (reMatchCourse_spec h).2.2.2

theorem C10_witness :
    resolveCredits (("1-3").toList) ≠ [] ∧
    (resolveCredits (("1-3").toList)).all isDigitC = true :=
  C10_resolved_credits_numeric (normalizeText rangeEx) (("MATH").toList)
    (("89").toList) (("Special Topics").toList) (("1-3").toList) rfl

/-- Claim C3: `parse_course_block` is a total function into an option:
it yields no record exactly when the course pattern fails on the
normalized text (so heading fragments and other malformed inputs give
`none` rather than an error), and a successful pattern match always
yields a populated record — in particular the guard modelling the
`int()` conversion never fails. -/
theorem C3_parse_total_iff (txt : List Char) :
    parse_course_block txt = none ↔ reMatchCourse (normalizeText txt) = none := by
  cases h : reMatchCourse (normalizeText txt) with
  | none => simp [parse_course_block, h]
  | some q =>
    obtain ⟨p, n, t, cr⟩ := q
    have hs := CreditsShape_resolve (reMatchCourse_spec h).2.2.2
    simp [parse_course_block, h, hs.1, hs.2]

theorem C3_witness : parse_course_block headingEx = none :=
  (C3_parse_total_iff headingEx).mpr rfl

/-- Claim C1: whenever the course pattern matches the normalized block
text, the parsed prefix is the maximal leading run of uppercase letters,
the parsed number is the following digit run with an optional trailing
uppercase letter, and the record's key (the mapping code) is exactly
`prefix ++ number` with no separator. -/
theorem C1_code_is_prefix_append_number (txt : List Char) (rec : CourseRecord)
    (h : parse_course_block txt = some rec) :
    rec.key = rec.pfx ++ rec.number ∧
    rec.pfx = (normalizeText txt).takeWhile isUpperAZ ∧ rec.pfx ≠ [] ∧
    (∃ opt, rec.number =
        (((normalizeText txt).dropWhile isUpperAZ).dropWhile pyIsSpace).takeWhile isDigitC
          ++ opt ∧
      (((normalizeText txt).dropWhile isUpperAZ).dropWhile pyIsSpace).takeWhile isDigitC
        ≠ [] ∧
      (opt = [] ∨ ∃ c, opt = [c] ∧ isUpperAZ c = true)) := by
  cases hm : reMatchCourse (normalizeText txt) with
  | none => simp [parse_course_block, hm] at h
  | some q =>
    obtain ⟨p, n, t, cr⟩ := q
    obtain ⟨hp, hpne, ⟨opt, hn, hdne, hopt⟩, hcr⟩ := reMatchCourse_spec hm
    have hs := CreditsShape_resolve hcr
    simp only [parse_course_block, hm, ne_eq, hs.1, not_false_eq_true, hs.2,
      and_self, if_true, Option.some.injEq] at h
    subst h
    exact ⟨rfl, hp, hpne, opt, hn, hdne, hopt⟩

theorem C1_witness :
    parse_course_block blockEx = some recEx ∧
    recEx.key = recEx.pfx ++ recEx.number ∧ recEx.pfx ≠ [] :=
  ⟨rfl, (C1_code_is_prefix_append_number blockEx recEx rfl).1,
    (C1_code_is_prefix_append_number blockEx recEx rfl).2.2.1⟩

/-- Claim C2 counterexample: on the block `"A 1. T. 3-1 Credits. x"` the
credit field is the range `3-1`, whose maximum endpoint is `3`, yet the
parsed record carries `credits = 1` — the code keeps the value after the
hyphen, not the maximum. -/
theorem C2_cex :
    reMatchCourse (normalizeText rangeRevEx) =
      some ((("A")).toList, (("1")).toList, (("T")).toList, (("3-1")).toList) ∧
    parse_course_block rangeRevEx = some rangeRevRec ∧
    rangeRevRec.credits = 1 ∧ ¬ rangeRevRec.credits = max 3 1 :=
  ⟨rfl, rfl, rfl, by decide⟩

/-- Claim C2 (amended): for a matched block with a single-integer credit
field the record's credits is that integer; for a range the record's
credits is the SECOND endpoint (the value after the hyphen), which
equals the maximum endpoint exactly when the range is written
low-to-high. -/
theorem C2_credits_resolution (txt : List Char) (rec : CourseRecord)
    (p n t cr d1 d2 : List Char)
    (hp : parse_course_block txt = some rec)
    (hm : reMatchCourse (normalizeText txt) = some (p, n, t, cr)) :
    (cr.all isDigitC = true → rec.credits = digitsToNat cr) ∧
    (cr = d1 ++ '-' :: d2 → d1.all isDigitC = true → d2.all isDigitC = true →
      rec.credits = digitsToNat d2 ∧
      (digitsToNat d1 ≤ digitsToNat d2 →
        rec.credits = max (digitsToNat d1) (digitsToNat d2))) := by
  have hs := CreditsShape_resolve (reMatchCourse_spec hm).2.2.2
  simp only [parse_course_block, hm, ne_eq, hs.1, not_false_eq_true, hs.2,
    and_self, if_true, Option.some.injEq] at hp
  subst hp
  constructor
  · intro hall
    simp only [resolveCredits_digits hall]
  · intro hcr ha1 ha2
    subst hcr
    constructor
    · simp only [resolveCredits_range ha1 ha2]
    · intro hle
      simp only [resolveCredits_range ha1 ha2]
      exact (Nat.max_eq_right hle).symm

theorem C2_witness :
    rangeRec.credits = digitsToNat (("3")).toList ∧
    rangeRec.credits = max (digitsToNat (("1")).toList) (digitsToNat (("3")).toList) := by
  have h := C2_credits_resolution rangeEx rangeRec (("MATH")).toList (("89")).toList
    (("Special Topics")).toList (("1-3")).toList (("1")).toList (("3")).toList rfl rfl
  have h2 := h.2 rfl (by decide) (by decide)
  exact ⟨h2.1, h2.2 (by decide)⟩

theorem containsSub_infix_iff {pat : List Char} :
    ∀ {s : List Char}, containsSub pat s = true ↔ pat <:+: s := by
  intro s
  induction s with
  | nil =>
    rw [show containsSub pat [] = pat.isEmpty from rfl]
    rw [List.isEmpty_iff, List.infix_nil]
  | cons c t ih =>
    rw [show containsSub pat (c :: t) = (pat.isPrefixOf (c :: t) || containsSub pat t)
        from rfl]
    rw [Bool.or_eq_true, List.isPrefixOf_iff_prefix, ih, List.infix_cons_iff]

/-- Claim C5: `extract_geneds` returns exactly the vocabulary entries
occurring as substrings of the uppercased text, listed in vocabulary
order (the result is a sublist of `GENED_PATTERNS`), not in order of
appearance; in particular a text containing `FC-QUANT` before
`FC-GLOBAL` yields `[FC-GLOBAL, FC-QUANT]`. -/
theorem C5_geneds_vocabulary_order :
    (∀ text p, p ∈ extract_geneds text ↔
        p ∈ GENED_PATTERNS ∧ p.toList <:+: upperOf text) ∧
    (∀ text, (extract_geneds text).Sublist GENED_PATTERNS) ∧
    extract_geneds genedsEx = ["FC-GLOBAL", "FC-QUANT"] := by
  refine ⟨?_, ?_, ?_⟩
  · intro text p
    rw [extract_geneds, List.mem_filter, containsSub_infix_iff]
  · intro text
    exact List.filter_sublist _
  · rfl

theorem C5_witness : (("FC-QUANT")).toList <:+: upperOf genedsEx :=
  ((C5_geneds_vocabulary_order.1 genedsEx (("FC-QUANT"))).mp (by decide)).2

/-! ## Normalization -/

theorem collapseWS_cons_not_space {d : Char} (h : pyIsSpace d = false) (t : List Char) :
    collapseWS (d :: t) = d :: collapseWS t := by
  cases t with
  | nil => simp [collapseWS, h]
  | cons e r => simp [collapseWS, h]

theorem collapseWS_mem : ∀ {l : List Char} {c : Char}, c ∈ collapseWS l →
    c = ' ' ∨ (c ∈ l ∧ pyIsSpace c = false) := by
  intro l
  induction l using collapseWS.induct with
  | case1 => intro c h; simp [collapseWS] at h
  | case2 d hd =>
    intro c h
    simp only [collapseWS, if_pos hd, List.mem_singleton] at h
    exact Or.inl h
  | case3 d hd =>
    intro c h
    rw [Bool.not_eq_true] at hd
    simp only [collapseWS, hd, Bool.false_eq_true, if_false, List.mem_singleton] at h
    subst h
    exact Or.inr ⟨List.mem_singleton_self _, hd⟩
  | case4 c d rest hc hd ih =>
    intro x h
    rw [show collapseWS (c :: d :: rest) = collapseWS (d :: rest) by
      simp [collapseWS, hc, hd]] at h
    rcases ih h with h1 | ⟨h2, h3⟩
    · exact Or.inl h1
    · exact Or.inr ⟨List.mem_cons_of_mem c h2, h3⟩
  | case5 c d rest hc hd ih =>
    intro x h
    rw [Bool.not_eq_true] at hd
    rw [show collapseWS (c :: d :: rest) = ' ' :: collapseWS (d :: rest) by
      simp [collapseWS, hc, hd]] at h
    rcases List.mem_cons.mp h with h1 | h1
    · exact Or.inl h1
    · rcases ih h1 with h2 | ⟨h2, h3⟩
      · exact Or.inl h2
      · exact Or.inr ⟨List.mem_cons_of_mem c h2, h3⟩
  | case6 c d rest hc ih =>
    intro x h
    rw [Bool.not_eq_true] at hc
    rw [show collapseWS (c :: d :: rest) = c :: collapseWS (d :: rest) by
      simp [collapseWS, hc]] at h
    rcases List.mem_cons.mp h with h1 | h1
    · subst h1
      exact Or.inr ⟨List.mem_cons_self _ _, hc⟩
    · rcases ih h1 with h2 | ⟨h2, h3⟩
      · exact Or.inl h2
      · exact Or.inr ⟨List.mem_cons_of_mem c h2, h3⟩

theorem collapseWS_chain : ∀ (l : List Char),
    List.Chain' (fun a b => ¬(a = ' ' ∧ b = ' ')) (collapseWS l) := by
  intro l
  induction l using collapseWS.induct with
  | case1 => simp [collapseWS]
  | case2 d hd => simp [collapseWS, if_pos hd]
  | case3 d hd =>
    rw [Bool.not_eq_true] at hd
    simp [collapseWS, hd]
  | case4 c d rest hc hd ih =>
    rw [show collapseWS (c :: d :: rest) = collapseWS (d :: rest) by
      simp [collapseWS, hc, hd]]
    exact ih
  | case5 c d rest hc hd ih =>
    rw [Bool.not_eq_true] at hd
    rw [show collapseWS (c :: d :: rest) = ' ' :: collapseWS (d :: rest) by
      simp [collapseWS, hc, hd]]
    rw [collapseWS_cons_not_space hd rest]
    rw [List.chain'_cons]
    refine ⟨?_, by rw [← collapseWS_cons_not_space hd rest]; exact ih⟩
    intro ⟨_, h2⟩
    rw [h2] at hd
    simp [pyIsSpace] at hd
  | case6 c d rest hc ih =>
    rw [Bool.not_eq_true] at hc
    rw [show collapseWS (c :: d :: rest) = c :: collapseWS (d :: rest) by
      simp [collapseWS, hc]]
    rw [List.chain'_cons']
    refine ⟨?_, ih⟩
    intro y _ ⟨h1, _⟩
    rw [h1] at hc
    simp [pyIsSpace] at hc

theorem dropTrailing_front (m : List Char) : dropTrailing m <+: m := by
  rw [← List.reverse_suffix, dropTrailing, List.reverse_reverse]
  exact List.dropWhile_suffix pyIsSpace

theorem stripWS_sublist (l : List Char) : (stripWS l).Sublist l :=
  List.Sublist.trans (List.IsPrefix.sublist (dropTrailing_front (l.dropWhile pyIsSpace)))
    (List.IsSuffix.sublist (List.dropWhile_suffix pyIsSpace))

theorem stripWS_chain {l : List Char}
    (h : List.Chain' (fun a b => ¬(a = ' ' ∧ b = ' ')) l) :
    List.Chain' (fun a b => ¬(a = ' ' ∧ b = ' ')) (stripWS l) :=
  List.Chain'.prefix (List.Chain'.suffix h (List.dropWhile_suffix pyIsSpace))
    (dropTrailing_front (l.dropWhile pyIsSpace))

theorem dropWhile_head? {α : Type} {p : α → Bool} {l : List α} {a : α}
    (h : (l.dropWhile p).head? = some a) : p a = false := by
  cases hdw : l.dropWhile p with
  | nil => rw [hdw] at h; simp at h
  | cons x t =>
    rw [hdw] at h
    simp only [List.head?_cons, Option.some.injEq] at h
    subst h
    exact dropWhile_head_false hdw

theorem stripWS_head {l : List Char} {a : Char}
    (h : (stripWS l).head? = some a) : pyIsSpace a = false := by
  obtain ⟨t, ht⟩ := dropTrailing_front (l.dropWhile pyIsSpace)
  apply dropWhile_head? (l := l) (p := pyIsSpace)
  rw [← ht]
  have hs : stripWS l = dropTrailing (l.dropWhile pyIsSpace) := rfl
  rw [hs] at h
  cases hdt : dropTrailing (l.dropWhile pyIsSpace) with
  | nil => rw [hdt] at h; simp at h
  | cons x r =>
    rw [hdt] at h
    rw [List.cons_append, List.head?_cons]
    simpa using h

theorem stripWS_last {l : List Char} {a : Char}
    (h : (stripWS l).getLast? = some a) : pyIsSpace a = false := by
  rw [stripWS, dropTrailing, ← List.head?_reverse, List.reverse_reverse] at h
  exact dropWhile_head? h

/-- Claim C6: text normalization is a pure total function whose output
contains no non-breaking space, in which the only whitespace character is
the ordinary space, which contains no two adjacent spaces (every
whitespace run was collapsed), and which neither starts nor ends with a
space (trimmed). -/
theorem C6_normalize_clean (s : List Char) :
    '\xA0' ∉ normalizeText s ∧
    (∀ c ∈ normalizeText s, pyIsSpace c = true → c = ' ') ∧
    List.Chain' (fun a b => ¬(a = ' ' ∧ b = ' ')) (normalizeText s) ∧
    (∀ a, (normalizeText s).head? = some a → ¬ a = ' ') ∧
    (∀ a, (normalizeText s).getLast? = some a → ¬ a = ' ') := by
  have hmem : ∀ c ∈ normalizeText s, pyIsSpace c = true → c = ' ' := by
    intro c hc hsp
    have hc2 : c ∈ collapseWS (replaceNbsp s) :=
      (stripWS_sublist (collapseWS (replaceNbsp s))).mem hc
    rcases collapseWS_mem hc2 with h1 | ⟨_, h2⟩
    · exact h1
    · rw [hsp] at h2; cases h2
  refine ⟨?_, hmem, stripWS_chain (collapseWS_chain (replaceNbsp s)), ?_, ?_⟩
  · intro hmemnb
    have := hmem _ hmemnb (by decide)
    simp at this
  · intro a ha hsp
    have := stripWS_head ha
    rw [hsp] at this
    simp [pyIsSpace] at this
  · intro a ha hsp
    have := stripWS_last ha
    rw [hsp] at this
    simp [pyIsSpace] at this

theorem C6_witness :
    '\xA0' ∉ normalizeText messyEx ∧ ¬ ('a' = ' ') ∧
    normalizeText messyEx = (("a b c")).toList :=
  ⟨(C6_normalize_clean messyEx).1,
   (C6_normalize_clean messyEx).2.2.2.1 'a' rfl, rfl⟩

/-! ## Aggregation -/

theorem C7_failed_department_contributes_nothing
    (fetch : String → Except String (List (List Char)))
    (pre post : List String) (d e : String)
    (h : fetch d = Except.error e) :
    scrape_department fetch d = [] ∧
    runCatalog fetch (pre ++ d :: post) = runCatalog fetch (pre ++ post) := by
  have hs : scrape_department fetch d = [] := by
    unfold scrape_department
    rw [h]
  refine ⟨hs, ?_⟩
  simp only [runCatalog, List.foldl_append, List.foldl_cons, hs, List.foldl_nil]

theorem C7_witness :
    scrape_department envOne (("math")) = [] ∧
    runCatalog envOne ([("aaad"), ("math"), ("engl")]) =
      runCatalog envOne ([("aaad"), ("engl")]) :=
  C7_failed_department_contributes_nothing envOne ([("aaad")]) ([("engl")])
    (("math")) (("503")) rfl

theorem scrape_department_congr {f1 f2 : String → Except String (List (List Char))}
    {d : String} (h : f1 d = f2 d) :
    scrape_department f1 d = scrape_department f2 d := by
  unfold scrape_department
  rw [h]

theorem runCatalog_congr_aux {f1 f2 : String → Except String (List (List Char))} :
    ∀ (depts : List String) (acc : List (List Char × StoredCourse)),
      (∀ d ∈ depts, f1 d = f2 d) →
      depts.foldl
        (fun acc d => (scrape_department f1 d).foldl
          (fun a c => insertCourse a c.key (toStored c)) acc) acc =
      depts.foldl
        (fun acc d => (scrape_department f2 d).foldl
          (fun a c => insertCourse a c.key (toStored c)) acc) acc := by
  intro depts
  induction depts with
  | nil => intro acc _; rfl
  | cons d rest ih =>
    intro acc h
    simp only [List.foldl_cons]
    rw [scrape_department_congr (h d (List.mem_cons_self d rest))]
    exact ih _ (fun x hx => h x (List.mem_cons_of_mem d hx))

/-- Claim C8: the pipeline output is a deterministic function of the
fetched responses — two runs whose fetch oracles agree on every
department of the fixed list build the same catalog and serialize to
byte-identical JSON. -/
theorem C8_deterministic_output (f1 f2 : String → Except String (List (List Char)))
    (h : ∀ d ∈ ARTS_SCIENCES_DEPTS, f1 d = f2 d) :
    runCatalog f1 ARTS_SCIENCES_DEPTS = runCatalog f2 ARTS_SCIENCES_DEPTS ∧
    runOutput f1 = runOutput f2 := by
  have hc : runCatalog f1 ARTS_SCIENCES_DEPTS = runCatalog f2 ARTS_SCIENCES_DEPTS :=
    runCatalog_congr_aux ARTS_SCIENCES_DEPTS [] h
  exact ⟨hc, congrArg serializeCatalog hc⟩

theorem C8_witness : runOutput envErrA = runOutput envErrB :=
  (C8_deterministic_output envErrA envErrB (fun _ _ => rfl)).2

/-! ## Catalog key invariant -/

theorem isUpperAZ_not_digit {c : Char} (h : isUpperAZ c = true) : isDigitC c = false := by
  simp only [isUpperAZ, Bool.and_eq_true, decide_eq_true_eq] at h
  simp only [isDigitC, Bool.and_eq_false_iff, decide_eq_false_iff_not]
  omega

theorem takeWhile_all_append {α : Type} {p : α → Bool} :
    ∀ {l : List α} (r : List α), (∀ x ∈ l, p x = true) →
      (l ++ r).takeWhile p = l ++ r.takeWhile p := by
  intro l
  induction l with
  | nil => intro r _; rfl
  | cons x xs ih =>
    intro r h
    rw [List.cons_append, List.takeWhile_cons, if_pos (h x (List.mem_cons_self x xs))]
    rw [ih r (fun y hy => h y (List.mem_cons_of_mem x hy)), List.cons_append]

theorem validKeyB_of {p ds opt : List Char}
    (hpne : p ≠ []) (hpu : ∀ x ∈ p, isUpperAZ x = true)
    (hds : ds ≠ []) (hdd : ∀ x ∈ ds, isDigitC x = true)
    (hopt : opt = [] ∨ ∃ c, opt = [c] ∧ isUpperAZ c = true) :
    validKeyB (p ++ (ds ++ opt)) = true := by
  obtain ⟨d0, ds', rfl⟩ : ∃ d0 ds', ds = d0 :: ds' := by
    cases ds with
    | nil => exact absurd rfl hds
    | cons a b => exact ⟨a, b, rfl⟩
  have hd0 : isDigitC d0 = true := hdd _ (List.mem_cons_self _ _)
  have hd0u : isUpperAZ d0 = false := isDigitC_not_upper hd0
  have htw : (p ++ (d0 :: ds' ++ opt)).takeWhile isUpperAZ = p := by
    rw [takeWhile_all_append _ hpu, List.cons_append, List.takeWhile_cons, if_neg (by
      rw [hd0u]; exact Bool.false_ne_true), List.append_nil]
  have hdw : (p ++ (d0 :: ds' ++ opt)).dropWhile isUpperAZ = d0 :: ds' ++ opt := by
    rw [dropWhile_all_append _ hpu, List.cons_append, List.dropWhile_cons, if_neg (by
      rw [hd0u]; exact Bool.false_ne_true)]
  have htd : (d0 :: ds' ++ opt).takeWhile isDigitC = d0 :: ds' := by
    rcases hopt with rfl | ⟨c, rfl, hcu⟩
    · rw [List.append_nil]
      exact takeWhile_all_eq hdd
    · rw [show (d0 :: ds') ++ [c] = (d0 :: ds') ++ [c] from rfl,
        takeWhile_all_append _ hdd, List.takeWhile_cons, if_neg (by
          rw [isUpperAZ_not_digit hcu]; exact Bool.false_ne_true), List.append_nil]
  have hddw : (d0 :: ds' ++ opt).dropWhile isDigitC = opt := by
    rcases hopt with rfl | ⟨c, rfl, hcu⟩
    · rw [List.append_nil, List.dropWhile_eq_nil_iff.mpr hdd]
    · rw [dropWhile_all_append _ hdd, List.dropWhile_cons, if_neg (by
        rw [isUpperAZ_not_digit hcu]; exact Bool.false_ne_true)]
  unfold validKeyB
  rw [htw, hdw, htd, hddw]
  rcases hopt with rfl | ⟨c, rfl, hcu⟩
  · simp [hpne]
  · simp [hpne, hcu]

theorem parse_key_valid {txt : List Char} {rec : CourseRecord}
    (h : parse_course_block txt = some rec) : validKeyB rec.key = true := by
  cases hm : reMatchCourse (normalizeText txt) with
  | none => simp [parse_course_block, hm] at h
  | some q =>
    obtain ⟨p, n, t, cr⟩ := q
    obtain ⟨hp, hpne, ⟨opt, hn, hdne, hopt⟩, hcr⟩ := reMatchCourse_spec hm
    have hs := CreditsShape_resolve hcr
    simp only [parse_course_block, hm, ne_eq, hs.1, not_false_eq_true, hs.2,
      and_self, if_true, Option.some.injEq] at h
    subst h
    show validKeyB (p ++ n) = true
    rw [hn]
    refine validKeyB_of ?_ ?_ hdne (fun x hx => List.mem_takeWhile_imp hx) hopt
    · exact hpne
    · intro x hx
      rw [hp] at hx
      exact List.mem_takeWhile_imp hx

theorem insertCourse_keys {cat : List (List Char × StoredCourse)}
    {k : List Char} {v : StoredCourse}
    (hcat : ∀ e ∈ cat, validKeyB e.1 = true) (hk : validKeyB k = true) :
    ∀ e ∈ insertCourse cat k v, validKeyB e.1 = true := by
  intro e he
  unfold insertCourse at he
  split at he
  · obtain ⟨x, hx, hxe⟩ := List.mem_map.mp he
    by_cases hxk : x.1 = k
    · rw [if_pos hxk] at hxe
      rw [← hxe]
      exact hk
    · rw [if_neg hxk] at hxe
      rw [← hxe]
      exact hcat x hx
  · rcases List.mem_append.mp he with h1 | h1
    · exact hcat e h1
    · rw [List.mem_singleton.mp h1]
      exact hk

theorem foldl_insert_keys :
    ∀ (recs : List CourseRecord) (acc : List (List Char × StoredCourse)),
      (∀ e ∈ acc, validKeyB e.1 = true) →
      (∀ c ∈ recs, validKeyB c.key = true) →
      ∀ e ∈ recs.foldl (fun a c => insertCourse a c.key (toStored c)) acc,
        validKeyB e.1 = true := by
  intro recs
  induction recs with
  | nil => intro acc hacc _ e he; exact hacc e he
  | cons c cs ih =>
    intro acc hacc hrecs e he
    rw [List.foldl_cons] at he
    refine ih _ ?_ (fun x hx => hrecs x (List.mem_cons_of_mem c hx)) e he
    exact insertCourse_keys hacc (hrecs c (List.mem_cons_self c cs))

theorem scrape_department_keys (fetch : String → Except String (List (List Char)))
    (d : String) : ∀ c ∈ scrape_department fetch d, validKeyB c.key = true := by
  intro c hc
  unfold scrape_department at hc
  split at hc
  · simp at hc
  · obtain ⟨b, _, hb⟩ := List.mem_filterMap.mp hc
    exact parse_key_valid hb

theorem runCatalog_keys (fetch : String → Except String (List (List Char))) :
    ∀ (depts : List String) (acc : List (List Char × StoredCourse)),
      (∀ e ∈ acc, validKeyB e.1 = true) →
      ∀ e ∈ depts.foldl
        (fun acc d => (scrape_department fetch d).foldl
          (fun a c => insertCourse a c.key (toStored c)) acc) acc,
        validKeyB e.1 = true := by
  intro depts
  induction depts with
  | nil => intro acc hacc e he; exact hacc e he
  | cons d rest ih =>
    intro acc hacc e he
    rw [List.foldl_cons] at he
    refine ih _ ?_ e he
    exact foldl_insert_keys _ _ hacc (scrape_department_keys fetch d)

theorem lookupCat_insert (cat : List (List Char × StoredCourse))
    (k : List Char) (v : StoredCourse) :
    lookupCat (insertCourse cat k v) k = some v := by
  induction cat with
  | nil => simp [insertCourse, lookupCat, List.find?]
  | cons e cs ih =>
    by_cases he : e.1 = k
    · have hany : (e :: cs).any (fun x => decide (x.1 = k)) = true := by
        simp [List.any_cons, he]
      simp [insertCourse, hany, lookupCat, List.find?, he]
    · cases hany2 : cs.any (fun x => decide (x.1 = k)) with
      | true =>
        have hany : (e :: cs).any (fun x => decide (x.1 = k)) = true := by
          simp [List.any_cons, hany2]
        have hins : insertCourse cs k v = cs.map (fun x => if x.1 = k then (k, v) else x) := by
          simp [insertCourse, hany2]
        rw [hins] at ih
        simp only [insertCourse, hany, if_true, List.map_cons, if_neg he]
        simp only [lookupCat] at ih ⊢
        rw [List.find?_cons_of_neg _ (by simpa using he)]
        exact ih
      | false =>
        have hany : (e :: cs).any (fun x => decide (x.1 = k)) = false := by
          simp [List.any_cons, hany2, he]
        have hins : insertCourse cs k v = cs ++ [(k, v)] := by
          simp [insertCourse, hany2]
        rw [hins] at ih
        simp only [insertCourse, hany, Bool.false_eq_true, if_false, List.cons_append]
        simp only [lookupCat] at ih ⊢
        rw [List.find?_cons_of_neg _ (by simpa using he)]
        exact ih

/-- Claim C9: every key of the aggregate catalog — after any department
list, hence at every intermediate point of the iteration, which is the
aggregate of a prefix of the list — matches the code construction rule
(uppercase letters, digits, optional trailing uppercase letter, all
nonempty where required), and inserting a record under an
already-present key overwrites the earlier value (last-writer-wins). -/
theorem C9_keys_valid_and_lww :
    (∀ (fetch : String → Except String (List (List Char))) (depts : List String)
      (k : List Char) (v : StoredCourse),
        (k, v) ∈ runCatalog fetch depts → validKeyB k = true) ∧
    (∀ (cat : List (List Char × StoredCourse)) (k : List Char) (v : StoredCourse),
        lookupCat (insertCourse cat k v) k = some v) := by
  constructor
  · intro fetch depts k v hmem
    exact runCatalog_keys fetch depts [] (by intro e he; simp at he) (k, v) hmem
  · exact lookupCat_insert

theorem C9_witness :
    validKeyB ((("ENGL105")).toList) = true ∧
    lookupCat (insertCourse [] ((("ENGL105")).toList) (toStored recEx))
      ((("ENGL105")).toList) = some (toStored recEx) := by
  constructor
  · refine C9_keys_valid_and_lww.1 envOne ([("engl")]) ((("ENGL105")).toList)
      (toStored recEx) ?_
    have h : runCatalog envOne ([("engl")]) =
        [(((("ENGL105")).toList), toStored recEx)] := rfl
    rw [h]
    exact List.mem_singleton_self _
  · exact C9_keys_valid_and_lww.2 [] _ _

/-! ## Description extraction -/

theorem descAux_spec :
    ∀ {r' : List Char} (acc : List Char), '\n' ∉ r' →
      descAux acc r' = some (acc.reverse ++ r'.take (boundaryIdx r')) := by
  intro r'
  induction r' with
  | nil =>
    intro acc _
    show (if boundaryOrEnd [] then some acc.reverse else none) = _
    rw [if_pos (by decide)]
    simp [boundaryIdx]
  | cons c rest ih =>
    intro acc hnl
    have hcnl : ¬ c = '\n' := by
      intro hc
      exact hnl (hc ▸ List.mem_cons_self c rest)
    by_cases hb : boundaryOrEnd (c :: rest) = true
    · show (if boundaryOrEnd (c :: rest) then some acc.reverse
        else if c = '\n' then none else descAux (c :: acc) rest) = _
      rw [if_pos hb, boundaryIdx, if_pos hb]
      simp
    · show (if boundaryOrEnd (c :: rest) then some acc.reverse
        else if c = '\n' then none else descAux (c :: acc) rest) = _
      rw [if_neg hb, if_neg hcnl,
        ih (c :: acc) (fun hm => hnl (List.mem_cons_of_mem c hm))]
      rw [boundaryIdx, if_neg hb, List.take_succ_cons]
      simp

theorem tryDescAt_spec {c : Char} {r' : List Char} (hnl : '\n' ∉ c :: r') :
    tryDescAt (c :: r') = some ((c :: r').take (1 + boundaryIdx r')) := by
  have hcnl : ¬ c = '\n' := fun hc => hnl (hc ▸ List.mem_cons_self c r')
  show (if c = '\n' then none else descAux [c] r') = _
  rw [if_neg hcnl, descAux_spec [c] (fun hm => hnl (List.mem_cons_of_mem c hm))]
  rw [show (1 + boundaryIdx r') = boundaryIdx r' + 1 from Nat.add_comm 1 _,
    List.take_succ_cons]
  simp

theorem trySpacesDesc_found {u : List Char} {c : Char} {r' : List Char}
    (hdw : u.dropWhile pyIsSpace = c :: r') (hnl : '\n' ∉ u) :
    trySpacesDesc u ((u.takeWhile pyIsSpace).length) =
      some ((c :: r').take (1 + boundaryIdx r')) := by
  have hdrop : u.drop ((u.takeWhile pyIsSpace).length) = c :: r' := by
    rw [drop_takeWhile_length, hdw]
  have hnl2 : '\n' ∉ c :: r' := by
    intro hm
    exact hnl ((List.dropWhile_suffix pyIsSpace).sublist.subset (hdw ▸ hm))
  cases hm : (u.takeWhile pyIsSpace).length with
  | zero =>
    have hu : u = c :: r' := by
      rw [← List.drop_zero u, ← hm, hdrop]
    show tryDescAt u = _
    rw [hu]
    exact tryDescAt_spec hnl2
  | succ j =>
    show (match tryDescAt (u.drop (j + 1)) with
      | some d => some d
      | none => trySpacesDesc u j) = _
    rw [← hm, hdrop, tryDescAt_spec hnl2]

theorem trySpacesDesc_spaces :
    ∀ (j : Nat) {u : List Char}, u ≠ [] → (∀ x ∈ u, pyIsSpace x = true) →
      '\n' ∉ u →
      ∃ d, trySpacesDesc u j = some d ∧ ∀ x ∈ d, pyIsSpace x = true := by
  intro j
  induction j with
  | zero =>
    intro u hne hsp hnl
    obtain ⟨c, u', rfl⟩ : ∃ c u', u = c :: u' := by
      cases u with
      | nil => exact absurd rfl hne
      | cons a b => exact ⟨a, b, rfl⟩
    refine ⟨_, tryDescAt_spec hnl, ?_⟩
    intro x hx
    exact hsp x (List.take_subset _ _ hx)
  | succ j ih =>
    intro u hne hsp hnl
    cases hdrop : u.drop (j + 1) with
    | nil =>
      obtain ⟨d, hd, hdsp⟩ := ih hne hsp hnl
      refine ⟨d, ?_, hdsp⟩
      show (match tryDescAt (u.drop (j + 1)) with
        | some d => some d
        | none => trySpacesDesc u j) = some d
      rw [hdrop]
      exact hd
    | cons c2 r2 =>
      have hsub : ∀ x ∈ c2 :: r2, x ∈ u := by
        intro x hx
        exact List.drop_subset (j + 1) u (hdrop ▸ hx)
      have hnl2 : '\n' ∉ c2 :: r2 := fun hm => hnl (hsub _ hm)
      refine ⟨(c2 :: r2).take (1 + boundaryIdx r2), ?_, ?_⟩
      · show (match tryDescAt (u.drop (j + 1)) with
          | some d => some d
          | none => trySpacesDesc u j) = _
        rw [hdrop, tryDescAt_spec hnl2]
      · intro x hx
        exact hsp x (hsub x (List.take_subset _ _ hx))

theorem stripWS_allspace {d : List Char} (h : ∀ x ∈ d, pyIsSpace x = true) :
    stripWS d = [] := by
  rw [stripWS, List.dropWhile_eq_nil_iff.mpr h]
  rfl

theorem ciStrip_suffix : ∀ {p s u : List Char}, ciStrip p s = some u → u <:+ s := by
  intro p
  induction p with
  | nil =>
    intro s u h
    cases h
    exact List.suffix_refl s
  | cons q ps ih =>
    intro s u h
    cases s with
    | nil => simp [ciStrip] at h
    | cons c cs =>
      rw [show ciStrip (q :: ps) (c :: cs) =
        (if c.toLower = q then ciStrip ps cs else none) from rfl] at h
      by_cases hc : c.toLower = q
      · rw [if_pos hc] at h
        exact (ih h).trans (List.suffix_cons c cs)
      · rw [if_neg hc] at h
        simp at h

theorem ciStrip_chars : ∀ {p s u : List Char}, ciStrip p s = some u →
    ∀ y ∈ s, (∃ q ∈ p, y.toLower = q) ∨ y ∈ u := by
  intro p
  induction p with
  | nil =>
    intro s u h y hy
    cases h
    exact Or.inr hy
  | cons q ps ih =>
    intro s u h y hy
    cases s with
    | nil => simp [ciStrip] at h
    | cons c cs =>
      rw [show ciStrip (q :: ps) (c :: cs) =
        (if c.toLower = q then ciStrip ps cs else none) from rfl] at h
      by_cases hc : c.toLower = q
      · rw [if_pos hc] at h
        rcases List.mem_cons.mp hy with rfl | hy2
        · exact Or.inl ⟨q, List.mem_cons_self q ps, hc⟩
        · rcases ih h y hy2 with ⟨q2, hq2, hl⟩ | hu
          · exact Or.inl ⟨q2, List.mem_cons_of_mem q hq2, hl⟩
          · exact Or.inr hu
      · rw [if_neg hc] at h
        simp at h

theorem creditMarkTail_shape {u0 u : List Char} (h : creditMarkTail u0 = some u) :
    (∃ c6, u0 = c6 :: '.' :: u ∧ c6.toLower = 's') ∨ u0 = '.' :: u := by
  cases u0 with
  | nil => simp [creditMarkTail] at h
  | cons c rest =>
    cases rest with
    | nil =>
      rw [show creditMarkTail [c] = (if c = '.' then some [] else none) from rfl] at h
      by_cases hc : c = '.'
      · rw [if_pos hc] at h
        cases h
        exact Or.inr (by rw [hc])
      · rw [if_neg hc] at h
        simp at h
    | cons r v =>
      rw [show creditMarkTail (c :: r :: v) =
        (if c.toLower = 's' then
          if r = '.' then some v else none
        else if c = '.' then some (r :: v)
        else none) from rfl] at h
      by_cases hs : c.toLower = 's'
      · rw [if_pos hs] at h
        by_cases hr : r = '.'
        · rw [if_pos hr] at h
          cases h
          exact Or.inl ⟨c, by rw [hr], hs⟩
        · rw [if_neg hr] at h
          simp at h
      · rw [if_neg hs] at h
        by_cases hc : c = '.'
        · rw [if_pos hc] at h
          cases h
          exact Or.inr (by rw [hc])
        · rw [if_neg hc] at h
          simp at h

theorem tryCreditsHere_head {x : Char} {l u : List Char}
    (h : tryCreditsHere (x :: l) = some u) : x.toLower = 'c' := by
  unfold tryCreditsHere at h
  cases hcs : ciStrip (("credit")).toList (x :: l) with
  | none => rw [hcs] at h; simp at h
  | some u0 =>
    rw [show ciStrip (("credit")).toList (x :: l) =
      (if x.toLower = 'c' then ciStrip (("redit")).toList l else none) from rfl] at hcs
    by_cases hx : x.toLower = 'c'
    · exact hx
    · rw [if_neg hx] at hcs
      simp at hcs

theorem tryCreditsHere_suffix {s u : List Char}
    (h : tryCreditsHere s = some u) : u <:+ s := by
  unfold tryCreditsHere at h
  cases hcs : ciStrip (("credit")).toList s with
  | none => rw [hcs] at h; simp at h
  | some u0 =>
    rw [hcs] at h
    have hsuf : u0 <:+ s := ciStrip_suffix hcs
    rcases creditMarkTail_shape h with ⟨c6, rfl, _⟩ | rfl
    · exact ((List.suffix_cons '.' u).trans (List.suffix_cons c6 _)).trans hsuf
    · exact (List.suffix_cons '.' u).trans hsuf

theorem searchDesc_no_c : ∀ {l : List Char},
    (∀ y ∈ l, ¬ y.toLower = 'c') → searchDesc l = none := by
  intro l
  induction l with
  | nil => intro _; rfl
  | cons c rest ih =>
    intro h
    cases hch : tryCreditsHere (c :: rest) with
    | some u =>
      exact absurd (tryCreditsHere_head hch) (h c (List.mem_cons_self c rest))
    | none =>
      show (match tryCreditsHere (c :: rest) with
        | some u =>
          match trySpacesDesc u ((u.takeWhile pyIsSpace).length) with
          | some d => some d
          | none => searchDesc rest
        | none => searchDesc rest) = none
      rw [hch]
      exact ih (fun y hy => h y (List.mem_cons_of_mem c hy))

theorem tryCreditsHere_tail_no_c {x : Char} {l : List Char}
    (h : tryCreditsHere (x :: l) = some []) : ∀ y ∈ l, ¬ y.toLower = 'c' := by
  unfold tryCreditsHere at h
  cases hcs : ciStrip (("credit")).toList (x :: l) with
  | none => rw [hcs] at h; simp at h
  | some u0 =>
    rw [hcs] at h
    rw [show ciStrip (("credit")).toList (x :: l) =
      (if x.toLower = 'c' then ciStrip (("redit")).toList l else none) from rfl] at hcs
    by_cases hx : x.toLower = 'c'
    · rw [if_pos hx] at hcs
      have hchars := ciStrip_chars hcs
      have hu0 : ∀ y ∈ u0, ¬ y.toLower = 'c' := by
        intro y hy
        rcases creditMarkTail_shape h with ⟨c6, rfl, hs6⟩ | rfl
        · rcases List.mem_cons.mp hy with rfl | hy2
          · rw [hs6]; decide
          · rw [List.mem_singleton.mp hy2]; decide
        · rw [List.mem_singleton.mp hy]; decide
      intro y hy
      rcases hchars y hy with ⟨q, hq, hlq⟩ | hu
      · intro hyc
        rw [hyc] at hlq
        have hq2 : q ∈ (("redit")).toList := hq
        rw [← hlq] at hq2
        simp at hq2
      · exact hu0 y hu
    · rw [if_neg hx] at hcs
      simp at hcs

theorem searchDesc_cons_none {c : Char} {rest : List Char}
    (hch : tryCreditsHere (c :: rest) = none) :
    searchDesc (c :: rest) = searchDesc rest := by
  show (match tryCreditsHere (c :: rest) with
    | some u =>
      match trySpacesDesc u ((u.takeWhile pyIsSpace).length) with
      | some d => some d
      | none => searchDesc rest
    | none => searchDesc rest) = searchDesc rest
  rw [hch]

theorem searchDesc_cons_some {c : Char} {rest u : List Char}
    (hch : tryCreditsHere (c :: rest) = some u) :
    searchDesc (c :: rest) =
      (match trySpacesDesc u ((u.takeWhile pyIsSpace).length) with
        | some d => some d
        | none => searchDesc rest) := by
  show (match tryCreditsHere (c :: rest) with
    | some u =>
      match trySpacesDesc u ((u.takeWhile pyIsSpace).length) with
      | some d => some d
      | none => searchDesc rest
    | none => searchDesc rest) = _
  rw [hch]

theorem firstCreditMarker_cons_none {c : Char} {rest : List Char}
    (hch : tryCreditsHere (c :: rest) = none) :
    firstCreditMarker (c :: rest) = firstCreditMarker rest := by
  show (match tryCreditsHere (c :: rest) with
    | some u => some u
    | none => firstCreditMarker rest) = _
  rw [hch]

theorem firstCreditMarker_cons_some {c : Char} {rest u : List Char}
    (hch : tryCreditsHere (c :: rest) = some u) :
    firstCreditMarker (c :: rest) = some u := by
  show (match tryCreditsHere (c :: rest) with
    | some u => some u
    | none => firstCreditMarker rest) = _
  rw [hch]

theorem normalizeText_no_newline (s : List Char) : '\n' ∉ normalizeText s := by
  intro hm
  have h2 : '\n' ∈ collapseWS (replaceNbsp s) :=
    (stripWS_sublist (collapseWS (replaceNbsp s))).subset hm
  rcases collapseWS_mem h2 with h3 | ⟨_, h4⟩
  · exact absurd h3 (by decide)
  · simp [pyIsSpace] at h4

/-- The code's description value coincides with the amended reading of
the spec sentence: region after the first case-insensitive `Credits?.`
occurrence (plus the whitespace run), cut at the first boundary-phrase
occurrence strictly after the region's first character, or end of
string; empty region gives the empty description. -/
theorem descOf_eq_amended : ∀ {s : List Char}, '\n' ∉ s →
    descOf s = descAmendedOf s := by
  intro s
  induction s with
  | nil => intro _; rfl
  | cons c rest ih =>
    intro hnl
    have hnlr : '\n' ∉ rest := fun hm => hnl (List.mem_cons_of_mem c hm)
    cases hch : tryCreditsHere (c :: rest) with
    | none =>
      have h1 : descOf (c :: rest) = descOf rest := by
        rw [descOf, descOf, searchDesc_cons_none hch]
      have h2 : descAmendedOf (c :: rest) = descAmendedOf rest := by
        rw [descAmendedOf, descAmendedOf, firstCreditMarker_cons_none hch]
      rw [h1, h2]
      exact ih hnlr
    | some u =>
      have hnlu : '\n' ∉ u :=
        fun hm => hnl ((tryCreditsHere_suffix hch).sublist.subset hm)
      cases hdw : u.dropWhile pyIsSpace with
      | cons c2 r2 =>
        have hfound := trySpacesDesc_found hdw hnlu
        have h1 : descOf (c :: rest) =
            stripWS (collapseWS (stripWS ((c2 :: r2).take (1 + boundaryIdx r2)))) := by
          rw [descOf, searchDesc_cons_some hch, hfound]
          rfl
        have h2 : descAmendedOf (c :: rest) =
            stripWS (collapseWS (stripWS ((c2 :: r2).take (1 + boundaryIdx r2)))) := by
          rw [descAmendedOf, firstCreditMarker_cons_some hch]
          show (match u.dropWhile pyIsSpace with
            | [] => []
            | c3 :: r3 =>
              stripWS (collapseWS (stripWS ((c3 :: r3).take (1 + boundaryIdx r3))))) = _
          rw [hdw]
        rw [h1, h2]
      | nil =>
        have hallsp : ∀ x ∈ u, pyIsSpace x = true := List.dropWhile_eq_nil_iff.mp hdw
        have h2 : descAmendedOf (c :: rest) = [] := by
          rw [descAmendedOf, firstCreditMarker_cons_some hch]
          show (match u.dropWhile pyIsSpace with
            | [] => []
            | c3 :: r3 =>
              stripWS (collapseWS (stripWS ((c3 :: r3).take (1 + boundaryIdx r3))))) = _
          rw [hdw]
        rw [h2]
        cases u with
        | nil =>
          have hrest : searchDesc rest = none :=
            searchDesc_no_c (tryCreditsHere_tail_no_c hch)
          have h1 : searchDesc (c :: rest) = none := by
            rw [searchDesc_cons_some hch]
            show (match trySpacesDesc [] 0 with
              | some d => some d
              | none => searchDesc rest) = none
            rw [show trySpacesDesc [] 0 = none from rfl, hrest]
          rw [descOf, h1]
          rfl
        | cons c2 u2 =>
          obtain ⟨d, hd, hdsp⟩ :=
            trySpacesDesc_spaces (((c2 :: u2).takeWhile pyIsSpace).length)
              (by simp) hallsp hnlu
          have h1 : descOf (c :: rest) = stripWS (collapseWS (stripWS d)) := by
            rw [descOf, searchDesc_cons_some hch, hd]
            rfl
          rw [h1, stripWS_allspace hdsp]
          rfl

/-- Claim C4 counterexample: on the normalized block
`"A 1. T. 3 Credits. Rules & Requirements: x"` the boundary phrase
occurs immediately after the credits statement, so the claim's reading
(region before the FIRST boundary occurrence, boundary excluded) yields
the empty description, yet the parser's description is the whole tail
`"Rules & Requirements: x"`, boundary phrase included. -/
theorem C4_cex :
    parse_course_block boundaryAtStartEx = some boundaryAtStartRec ∧
    boundaryAtStartRec.description = (("Rules & Requirements: x")).toList ∧
    descClaimOf (normalizeText boundaryAtStartEx) = [] ∧
    ¬ boundaryAtStartRec.description = descClaimOf (normalizeText boundaryAtStartEx) :=
  ⟨rfl, rfl, rfl, by decide⟩

/-- Claim C4 (amended): the description of a matched block is the text
after the credits statement (the first case-insensitive `Credits?.`
occurrence and the following whitespace run) up to the first occurrence
of a boundary phrase STRICTLY AFTER the region's first character — a
boundary phrase starting immediately after the credits statement does
not terminate (nor empty) the description — or to the end of the
string; the boundary phrase is excluded and the result is
whitespace-collapsed and trimmed; when no such region exists the
description is the empty string. -/
theorem C4_description_amended (txt : List Char) (rec : CourseRecord)
    (h : parse_course_block txt = some rec) :
    rec.description = descAmendedOf (normalizeText txt) := by
  cases hm : reMatchCourse (normalizeText txt) with
  | none => simp [parse_course_block, hm] at h
  | some q =>
    obtain ⟨p, n, t, cr⟩ := q
    have hs := CreditsShape_resolve (reMatchCourse_spec hm).2.2.2
    simp only [parse_course_block, hm, ne_eq, hs.1, not_false_eq_true, hs.2,
      and_self, if_true, Option.some.injEq] at h
    subst h
    show descOf (normalizeText txt) = descAmendedOf (normalizeText txt)
    exact descOf_eq_amended (normalizeText_no_newline txt)

theorem C4_witness :
    parse_course_block blockEx = some recEx ∧
    recEx.description = descAmendedOf (normalizeText blockEx) :=
  ⟨rfl, C4_description_amended blockEx recEx rfl⟩
